import Mathlib

/-!
Verification of the RSVP speed-reader playback engine.

The definitions below are a shallow embedding of the engine source
(class `RSVPEngine` together with the constants of `CONFIG`): JS strings
become lists of characters, timing quantities become rationals, the
fire-once cancellable host timer becomes an explicit `pending` field
holding the scheduled delay (cancelling clears it, firing consumes it),
and each engine method becomes a pure function from an engine state to
the new state paired with the list of callback events it emits, in
emission order.  The wall-clock reading taken when a timer fires is an
explicit argument of the firing transition.
-/

namespace RSVP

/-- JS strings, modelled as lists of characters. -/
abbrev Word := List Char

/-- CONFIG.DEFAULT_WPM. -/
def DEFAULT_WPM : ℚ := 300

/-- CONFIG.MIN_WPM. -/
def MIN_WPM : ℚ := 200

/-- CONFIG.MAX_WPM. -/
def MAX_WPM : ℚ := 1000

/-- CONFIG.PUNCTUATION_PAUSE_MULTIPLIER (1.5). -/
def PUNCTUATION_PAUSE_MULTIPLIER : ℚ := 3 / 2

/-- CONFIG.ORP_RULES: pairs of (maxLength, orpIndex); `none` is the
unbounded final rule (maxLength Infinity). -/
def ORP_RULES : List (Option ℕ × ℕ) :=
  [(some 1, 0), (some 5, 1), (some 9, 2), (some 13, 3), (none, 4)]

/-- Scan of the rule table performed by `calculateORP`: the first rule
whose maxLength is ≥ the word length wins, its orpIndex clamped to
`min orpIndex (length - 1)` over the integers (JS `length - 1` can be
-1 for the empty string).  The empty-rule fallback mirrors the
`return Math.min(4, length - 1)` line of the source. -/
def orpFromRules (len : ℕ) : List (Option ℕ × ℕ) → ℤ
  | [] => min 4 ((len : ℤ) - 1)
  | (some m, idx) :: rest =>
      if len ≤ m then min (idx : ℤ) ((len : ℤ) - 1) else orpFromRules len rest
  | (none, idx) :: _ => min (idx : ℤ) ((len : ℤ) - 1)

/-- RSVPEngine.calculateORP. -/
def calculateORP (w : Word) : ℤ := orpFromRules w.length ORP_RULES

/-- CONFIG.PUNCTUATION_REGEX, the test `/[.!?;]$/.test(word)`: true iff
the final character is one of `. ! ? ;`. -/
def endsWithPunct (w : Word) : Bool :=
  match w.getLast? with
  | some c => c == '.' || c == '!' || c == '?' || c == ';'
  | none => false

/-- RSVPEngine.calculateDelay: base delay 60000 / wpm, multiplied by the
pause multiplier when the word ends in terminating punctuation. -/
def calculateDelay (w : Word) (wpm : ℚ) : ℚ :=
  if endsWithPunct w then 60000 / wpm * PUNCTUATION_PAUSE_MULTIPLIER
  else 60000 / wpm

/-- Whitespace class of the tokenizer's `/\s+/` (ASCII portion). -/
def isJsWhitespace (c : Char) : Bool :=
  c == ' ' || c == '\t' || c == '\n' || c == '\r' || c == '\x0b' || c == '\x0c'

/-- Splitting pass of `text.trim().split(/\s+/)`: cut at every whitespace
character.  Runs of whitespace (and the trimmed ends) thus produce empty
pieces, exactly the pieces the `.filter(word => word.length > 0)` of the
source discards, so composing with that filter yields the maximal
non-whitespace runs the source computes. -/
def splitWs : Word → Word → List Word
  | [], acc => [acc.reverse]
  | c :: cs, acc =>
      if isJsWhitespace c then acc.reverse :: splitWs cs []
      else splitWs cs (c :: acc)

/-- Tokenizer of RSVPEngine.setText:
`text.trim().split(/\s+/).filter(word => word.length > 0)`. -/
def tokenize (text : Word) : List Word :=
  (splitWs text []).filter fun w => decide (0 < w.length)

/-- JS `word[i]`: the character at index i, or undefined (`none`) when
out of range. -/
def charAt (w : Word) (i : ℤ) : Option Char :=
  if 0 ≤ i then w.get? i.toNat else none

/-- Payload built by RSVPEngine.getCurrentWordData.  `orpChar` is an
`Option` because JS `word[i]` is undefined out of range. -/
structure WordData where
  word : Word
  orpIndex : ℤ
  before : Word
  orpChar : Option Char
  after : Word
deriving DecidableEq, Repr

/-- Callback invocations observable by the engine's collaborator, in the
order the source issues them. -/
inductive Event where
  | wordChanged : WordData → Event
  | progressChanged : ℚ → Event
  | completed : Event
deriving DecidableEq, Repr

/-- State of an RSVPEngine instance.  `pending` models the armed host
timer: `some d` means one transition is scheduled to fire after delay
`d`; cancelling (`clearTimeout`) and firing both clear it.  The source
never arms a second timer while one is live (`start` returns early when
already playing, `pause`/`reset`/`setText` clear first, the fire callback
has consumed its own timer before rescheduling), so a single option field
is a faithful model of the timer. -/
structure EngineState where
  words : List Word
  currentIndex : ℕ
  wpm : ℚ
  isPlaying : Bool
  pending : Option ℚ
deriving DecidableEq, Repr

/-- Constructor state of RSVPEngine. -/
def initState : EngineState :=
  { words := [], currentIndex := 0, wpm := DEFAULT_WPM,
    isPlaying := false, pending := none }

/-- RSVPEngine.getProgress (the same expression is inlined in
updateProgress). -/
def getProgress (s : EngineState) : ℚ :=
  if 0 < s.words.length then (s.currentIndex : ℚ) / (s.words.length : ℚ) * 100
  else 0

/-- RSVPEngine.getCurrentWordData. -/
def getCurrentWordData (s : EngineState) : Option WordData :=
  if s.words.length ≤ s.currentIndex then none
  else
    some
      { word := s.words.getD s.currentIndex []
        orpIndex := calculateORP (s.words.getD s.currentIndex [])
        before := (s.words.getD s.currentIndex []).take
          (calculateORP (s.words.getD s.currentIndex [])).toNat
        orpChar := charAt (s.words.getD s.currentIndex [])
          (calculateORP (s.words.getD s.currentIndex []))
        after := (s.words.getD s.currentIndex []).drop
          (calculateORP (s.words.getD s.currentIndex []) + 1).toNat }

/-- RSVPEngine.displayCurrentWord: invokes onWordDisplay when word data
is available. -/
def displayCurrentWord (s : EngineState) : List Event :=
  match getCurrentWordData s with
  | some d => [Event.wordChanged d]
  | none => []

/-- RSVPEngine.updateProgress: always invokes onProgress. -/
def updateProgress (s : EngineState) : List Event :=
  [Event.progressChanged (getProgress s)]

/-- RSVPEngine.getWordCount. -/
def getWordCount (s : EngineState) : ℕ := s.words.length

/-- RSVPEngine.hasText. -/
def hasText (s : EngineState) : Bool := decide (0 < s.words.length)

/-- RSVPEngine.setWPM: clamp into [MIN_WPM, MAX_WPM]. -/
def setWPM (s : EngineState) (wpm : ℚ) : EngineState :=
  { s with wpm := max MIN_WPM (min MAX_WPM wpm) }

/-- RSVPEngine.scheduleNextWord: when playing, arm the timer with the
delay for the current word minus the drift carried in, floored at 1 ms. -/
def scheduleNextWord (s : EngineState) (drift : ℚ) : EngineState :=
  if s.isPlaying then
    { s with
      pending := some (max 1 (calculateDelay (s.words.getD s.currentIndex []) s.wpm - drift)) }
  else s

/-- RSVPEngine.setText: tokenize, reset position, stop playing, cancel
the pending timer, display the first word when there is one, then report
progress. -/
def setText (s : EngineState) (text : Word) : EngineState × List Event :=
  let s₁ : EngineState :=
    { s with words := tokenize text, currentIndex := 0,
             isPlaying := false, pending := none }
  (s₁, (if 0 < s₁.words.length then displayCurrentWord s₁ else [])
        ++ updateProgress s₁)

/-- RSVPEngine.pause: stop playing and cancel the pending timer (the
body of clearTimeout is folded in: `pending := none`). -/
def pause (s : EngineState) : EngineState × List Event :=
  ({ s with isPlaying := false, pending := none }, [])

/-- RSVPEngine.start. -/
def start (s : EngineState) : EngineState × List Event :=
  if s.words.length = 0 then (s, [])
  else if s.isPlaying then (s, [])
  else
    let s₁ : EngineState :=
      { s with currentIndex :=
                 if s.words.length ≤ s.currentIndex then 0 else s.currentIndex,
               isPlaying := true }
    (scheduleNextWord s₁ 0, displayCurrentWord s₁)

/-- RSVPEngine.reset: pause, rewind to 0, redisplay the first word when
non-empty, report progress. -/
def reset (s : EngineState) : EngineState × List Event :=
  let s₁ : EngineState :=
    { s with isPlaying := false, pending := none, currentIndex := 0 }
  (s₁, (if 0 < s₁.words.length then displayCurrentWord s₁ else [])
        ++ updateProgress s₁)

/-- RSVPEngine.toggle: pause when playing, start otherwise; also return
the resulting isPlaying flag. -/
def toggle (s : EngineState) : (EngineState × List Event) × Bool :=
  let r := if s.isPlaying then pause s else start s
  (r, r.1.isPlaying)

/-- Firing of the armed timer (the setTimeout callback inside
scheduleNextWord).  `actual` is the wall-clock elapsed time measured by
the callback; the drift passed to the rescheduling is
`actual - delay`.  A fire consumes the timer; the early-return guard
`if (!this.isPlaying) return` of the source is kept, and the
end-of-sequence branch stops playing, reports completion and schedules
nothing further. -/
def fireTimeout (s : EngineState) (actual : ℚ) : EngineState × List Event :=
  match s.pending with
  | none => (s, [])
  | some delay =>
      if s.isPlaying then
        let s₁ : EngineState :=
          { s with pending := none, currentIndex := s.currentIndex + 1 }
        if s₁.words.length ≤ s₁.currentIndex then
          ({ s₁ with isPlaying := false },
           updateProgress s₁ ++ [Event.completed])
        else
          (scheduleNextWord s₁ (actual - delay),
           updateProgress s₁ ++ displayCurrentWord s₁)
      else ({ s with pending := none }, [])

/-- One engine transition: any public method call, or the armed timer
firing. -/
inductive Step : EngineState → EngineState → Prop where
  | setTextStep (s : EngineState) (t : Word) : Step s (setText s t).1
  | startStep (s : EngineState) : Step s (start s).1
  | pauseStep (s : EngineState) : Step s (pause s).1
  | toggleStep (s : EngineState) : Step s (toggle s).1.1
  | resetStep (s : EngineState) : Step s (reset s).1
  | setWPMStep (s : EngineState) (wpm : ℚ) : Step s (setWPM s wpm)
  | fireStep (s : EngineState) (actual : ℚ) : Step s (fireTimeout s actual).1

/-- States an engine instance can actually be in. -/
inductive Reachable : EngineState → Prop where
  | init : Reachable initState
  | step {s s' : EngineState} : Reachable s → Step s s' → Reachable s'

/-- Repeated firing of the armed timer, each time with the wall clock
reading exactly the scheduled delay; events are concatenated in order. -/
def runFires : ℕ → EngineState → EngineState × List Event
  | 0, s => (s, [])
  | m + 1, s =>
      ((runFires m (fireTimeout s (s.pending.getD 0)).1).1,
       (fireTimeout s (s.pending.getD 0)).2
         ++ (runFires m (fireTimeout s (s.pending.getD 0)).1).2)

/-- Full playback scenario: load text, start, then let every scheduled
transition fire; the event list is everything emitted from `start`
onwards. -/
def playbackTrace (s : EngineState) (t : Word) : EngineState × List Event :=
  ((runFires (tokenize t).length (start (setText s t).1).1).1,
   (start (setText s t).1).2
     ++ (runFires (tokenize t).length (start (setText s t).1).1).2)

/-- Recognizer for word-changed events. -/
def isWordChangedEv : Event → Bool
  | Event.wordChanged _ => true
  | _ => false

/-- Recognizer for progress-changed events. -/
def isProgressEv : Event → Bool
  | Event.progressChanged _ => true
  | _ => false

/-- Recognizer for completion events. -/
def isCompletedEv : Event → Bool
  | Event.completed => true
  | _ => false

/-- Concrete idle state with two loaded words, used to instantiate
theorems with hypotheses. -/
def sampleIdle : EngineState :=
  { words := [['h', 'i'], ['y', 'o']], currentIndex := 0, wpm := 300,
    isPlaying := false, pending := none }

/-- Concrete playing state with an armed timer, used to instantiate
theorems with hypotheses. -/
def samplePlaying : EngineState :=
  { words := [['h', 'i'], ['y', 'o']], currentIndex := 0, wpm := 300,
    isPlaying := true, pending := some 200 }

/-- Bounds of the recognition index: for a non-empty word the clamp
keeps it inside the word. -/
lemma calculateORP_bounds (w : Word) (h : 1 ≤ w.length) :
    0 ≤ calculateORP w ∧ calculateORP w ≤ (w.length : ℤ) - 1 := by
  simp only [calculateORP, ORP_RULES, orpFromRules]
  split_ifs <;> constructor <;> omega

/-- The recognition index never exceeds the largest configured
recognition index (4). -/
lemma calculateORP_le_four (w : Word) : calculateORP w ≤ 4 := by
  simp only [calculateORP, ORP_RULES, orpFromRules]
  split_ifs <;> omega

/-- The recognition index is monotone in word length. -/
lemma calculateORP_mono (w₁ w₂ : Word) (h : w₁.length ≤ w₂.length) :
    calculateORP w₁ ≤ calculateORP w₂ := by
  simp only [calculateORP, ORP_RULES, orpFromRules]
  split_ifs <;> omega

/-- Whitespace-only input tokenizes to the empty sequence. -/
lemma tokenize_of_all_ws (t : Word) (h : ∀ c ∈ t, isJsWhitespace c = true) :
    tokenize t = [] := by
  induction t with
  | nil => rfl
  | cons c cs ih =>
      have hc : isJsWhitespace c = true := h c (List.mem_cons_self c cs)
      have ih' := ih fun x hx => h x (List.mem_cons_of_mem c hx)
      simp only [tokenize, splitWs, hc, if_true] at ih' ⊢
      simpa using ih'

/-- Every token produced by the tokenizer is non-empty. -/
lemma tokenize_ne_nil (t : Word) : ∀ w ∈ tokenize t, w ≠ [] := by
  intro w hw
  simp only [tokenize, List.mem_filter, decide_eq_true_eq] at hw
  exact List.length_pos.mp hw.2

/-- C2: in every cycle, the scheduled delay is the nominal delay of the
current word minus the carried drift, floored at 1 ms, hence strictly
positive. -/
theorem claim2_schedule_delay (s : EngineState) (drift : ℚ)
    (h : s.isPlaying = true) :
    (scheduleNextWord s drift).pending =
      some (max 1 (calculateDelay (s.words.getD s.currentIndex []) s.wpm - drift)) ∧
    0 < max 1 (calculateDelay (s.words.getD s.currentIndex []) s.wpm - drift) := by
  refine ⟨by simp [scheduleNextWord, h], ?_⟩
  exact lt_max_of_lt_left one_pos

theorem claim2_schedule_delay_witness :
    samplePlaying.isPlaying = true ∧
    ((scheduleNextWord samplePlaying 0).pending =
        some (max 1 (calculateDelay (samplePlaying.words.getD
          samplePlaying.currentIndex []) samplePlaying.wpm - 0)) ∧
      0 < max 1 (calculateDelay (samplePlaying.words.getD
        samplePlaying.currentIndex []) samplePlaying.wpm - 0)) :=
  ⟨rfl, claim2_schedule_delay samplePlaying 0 rfl⟩

/-- C3: for non-empty words the recognition index lies in [0, L-1], is
monotone in length, never exceeds the configured maximum (4), and is a
function of the length alone. -/
theorem claim3_orp_index (w₁ w₂ : Word) (h : 1 ≤ w₁.length) :
    0 ≤ calculateORP w₁ ∧ calculateORP w₁ ≤ (w₁.length : ℤ) - 1 ∧
    calculateORP w₁ ≤ 4 ∧
    (w₁.length ≤ w₂.length → calculateORP w₁ ≤ calculateORP w₂) ∧
    (w₁.length = w₂.length → calculateORP w₁ = calculateORP w₂) := by
  refine ⟨(calculateORP_bounds w₁ h).1, (calculateORP_bounds w₁ h).2,
    calculateORP_le_four w₁, fun hle => calculateORP_mono w₁ w₂ hle, fun he => ?_⟩
  unfold calculateORP
  rw [he]

theorem claim3_orp_index_witness :
    1 ≤ ("reading".toList : Word).length ∧
    (0 ≤ calculateORP ("reading".toList) ∧
      calculateORP ("reading".toList) ≤ (("reading".toList : Word).length : ℤ) - 1 ∧
      calculateORP ("reading".toList) ≤ 4 ∧
      (("reading".toList : Word).length ≤ ("information".toList : Word).length →
        calculateORP ("reading".toList) ≤ calculateORP ("information".toList)) ∧
      (("reading".toList : Word).length = ("information".toList : Word).length →
        calculateORP ("reading".toList) = calculateORP ("information".toList))) :=
  ⟨by decide, claim3_orp_index ("reading".toList) ("information".toList) (by decide)⟩

/-- C5: the tokenizer splits on whitespace runs discarding empty tokens;
whitespace-only input yields the empty sequence with word count 0 and
progress 0, and `start` on it is a no-op emitting nothing. -/
theorem claim5_tokenize (s : EngineState) (t : Word)
    (h : ∀ c ∈ t, isJsWhitespace c = true) :
    tokenize ("Hello,   world!".toList) = ["Hello,".toList, "world!".toList] ∧
    (∀ u : Word, ∀ w ∈ tokenize u, w ≠ []) ∧
    tokenize t = [] ∧
    (setText s t).1.words = [] ∧
    getWordCount (setText s t).1 = 0 ∧
    getProgress (setText s t).1 = 0 ∧
    (setText s t).2 = [Event.progressChanged 0] ∧
    start (setText s t).1 = ((setText s t).1, []) := by
  have ht : tokenize t = [] := tokenize_of_all_ws t h
  refine ⟨by decide, tokenize_ne_nil, ht, ?_, ?_, ?_, ?_, ?_⟩
  · simp [setText, ht]
  · simp [setText, getWordCount, ht]
  · simp [setText, getProgress, ht]
  · simp [setText, updateProgress, getProgress, ht]
  · simp [setText, start, ht]

theorem claim5_tokenize_witness :
    (∀ c ∈ ("  \t ".toList : Word), isJsWhitespace c = true) ∧
    (tokenize ("Hello,   world!".toList) = ["Hello,".toList, "world!".toList] ∧
      (∀ u : Word, ∀ w ∈ tokenize u, w ≠ []) ∧
      tokenize ("  \t ".toList) = [] ∧
      (setText initState ("  \t ".toList)).1.words = [] ∧
      getWordCount (setText initState ("  \t ".toList)).1 = 0 ∧
      getProgress (setText initState ("  \t ".toList)).1 = 0 ∧
      (setText initState ("  \t ".toList)).2 = [Event.progressChanged 0] ∧
      start (setText initState ("  \t ".toList)).1 =
        ((setText initState ("  \t ".toList)).1, [])) :=
  ⟨by decide, claim5_tokenize initState ("  \t ".toList) (by decide)⟩

/-- C7: the delay is 60000/R, multiplied by 1.5 exactly when the word
ends in `.`, `!`, `?` or `;`, and depends only on the final character
and the rate. -/
theorem claim7_delay (w w₂ : Word) (R : ℚ) (_h₁ : MIN_WPM ≤ R) (_h₂ : R ≤ MAX_WPM) :
    (endsWithPunct w = true →
      calculateDelay w R = PUNCTUATION_PAUSE_MULTIPLIER * (60000 / R)) ∧
    (endsWithPunct w = false → calculateDelay w R = 60000 / R) ∧
    (w.getLast? = w₂.getLast? → calculateDelay w R = calculateDelay w₂ R) := by
  refine ⟨fun hp => ?_, fun hp => ?_, fun hl => ?_⟩
  · simp [calculateDelay, hp]; ring
  · simp [calculateDelay, hp]
  · simp [calculateDelay, endsWithPunct, hl]

theorem claim7_delay_witness :
    MIN_WPM ≤ (600 : ℚ) ∧ (600 : ℚ) ≤ MAX_WPM ∧
    ((endsWithPunct ("word.".toList) = true →
        calculateDelay ("word.".toList) 600 =
          PUNCTUATION_PAUSE_MULTIPLIER * (60000 / 600)) ∧
      (endsWithPunct ("word.".toList) = false →
        calculateDelay ("word.".toList) 600 = 60000 / 600) ∧
      (("word.".toList : Word).getLast? = ("a.".toList : Word).getLast? →
        calculateDelay ("word.".toList) 600 = calculateDelay ("a.".toList) 600)) :=
  ⟨by norm_num [MIN_WPM], by norm_num [MAX_WPM],
    claim7_delay ("word.".toList) ("a.".toList) 600
      (by norm_num [MIN_WPM]) (by norm_num [MAX_WPM])⟩

/-- C9: loading text and immediately resetting produces the same state
and the same emissions (first-word payload, progress 0) as the load
alone, and `pause` is idempotent in state and emissions. -/
theorem claim9_roundtrip (s : EngineState) (t : Word) :
    reset (setText s t).1 = setText s t ∧
    getProgress (reset (setText s t).1).1 = 0 ∧
    pause (pause s).1 = pause s := by
  refine ⟨rfl, ?_, rfl⟩
  simp [reset, setText, getProgress]

/-- C1: pause, reset and setText all cancel the armed timer before
returning; a fire attempted after pause is a no-op that advances nothing
and emits nothing; and pausing mid-flight then starting again neither
advances the position nor changes the displayed word. -/
theorem claim1_cancellation (s : EngineState) (t : Word)
    (h : s.currentIndex < s.words.length) :
    (pause s).1.pending = none ∧
    (reset s).1.pending = none ∧
    (setText s t).1.pending = none ∧
    (∀ actual : ℚ, fireTimeout (pause s).1 actual = ((pause s).1, [])) ∧
    (start (pause s).1).1.currentIndex = s.currentIndex ∧
    (start (pause s).1).2 = displayCurrentWord s := by
  have hne : ¬s.words.length = 0 := by omega
  have hle : ¬s.words.length ≤ s.currentIndex := by omega
  refine ⟨rfl, rfl, rfl, fun actual => rfl, ?_, ?_⟩
  · simp [start, pause, scheduleNextWord, hne, hle]
  · simp [start, pause, scheduleNextWord, hne, hle, displayCurrentWord,
      getCurrentWordData]

theorem claim1_cancellation_witness :
    samplePlaying.currentIndex < samplePlaying.words.length ∧
    ((pause samplePlaying).1.pending = none ∧
      (reset samplePlaying).1.pending = none ∧
      (setText samplePlaying ("a b".toList)).1.pending = none ∧
      (∀ actual : ℚ,
        fireTimeout (pause samplePlaying).1 actual = ((pause samplePlaying).1, [])) ∧
      (start (pause samplePlaying).1).1.currentIndex = samplePlaying.currentIndex ∧
      (start (pause samplePlaying).1).2 = displayCurrentWord samplePlaying) :=
  ⟨by decide, claim1_cancellation samplePlaying ("a b".toList) (by decide)⟩

/-- C6: start is a no-op on an empty sequence or while playing; at or
past the end it restarts from 0; otherwise it keeps the position, enters
Playing, immediately emits word-changed for the current word, and arms
the first timed transition. -/
theorem claim6_start (s : EngineState) :
    (s.words = [] → start s = (s, [])) ∧
    (s.isPlaying = true → start s = (s, [])) ∧
    (s.isPlaying = false → s.words ≠ [] → s.words.length ≤ s.currentIndex →
      (start s).1.currentIndex = 0 ∧ (start s).1.isPlaying = true ∧
      (start s).1.pending.isSome = true ∧
      (start s).2 = displayCurrentWord { s with currentIndex := 0 } ∧
      (getCurrentWordData { s with currentIndex := 0 }).isSome = true) ∧
    (s.isPlaying = false → s.currentIndex < s.words.length →
      (start s).1.currentIndex = s.currentIndex ∧ (start s).1.isPlaying = true ∧
      (start s).1.pending.isSome = true ∧
      (start s).2 = displayCurrentWord s ∧
      (getCurrentWordData s).isSome = true) := by
  refine ⟨fun he => by simp [start, he], fun hp => ?_, fun hp hne hend => ?_, fun hp hlt => ?_⟩
  · by_cases he : s.words.length = 0
    · simp [start, he]
    · simp [start, he, hp]
  · have he : ¬s.words.length = 0 := by
      simpa [List.length_eq_zero] using hne
    have h0 : 0 < s.words.length := by omega
    refine ⟨?_, ?_, ?_, ?_, ?_⟩ <;>
      simp [start, he, hp, hend, scheduleNextWord, displayCurrentWord,
        getCurrentWordData, h0]
  · have he : ¬s.words.length = 0 := by omega
    have hend : ¬s.words.length ≤ s.currentIndex := by omega
    refine ⟨?_, ?_, ?_, ?_, ?_⟩ <;>
      simp [start, he, hp, hend, scheduleNextWord, displayCurrentWord,
        getCurrentWordData]

theorem claim6_start_witness :
    sampleIdle.isPlaying = false ∧
    sampleIdle.currentIndex < sampleIdle.words.length ∧
    ((start sampleIdle).1.currentIndex = sampleIdle.currentIndex ∧
      (start sampleIdle).1.isPlaying = true ∧
      (start sampleIdle).1.pending.isSome = true ∧
      (start sampleIdle).2 = displayCurrentWord sampleIdle ∧
      (getCurrentWordData sampleIdle).isSome = true) :=
  ⟨rfl, by decide, (claim6_start sampleIdle).2.2.2 rfl (by decide)⟩

/-- C10: getCurrentWordData returns none exactly when the position is at
or past the end; otherwise (for well-formed states, whose words are the
non-empty tokenizer output) the payload splits the current word around
the single recognition character. -/
theorem claim10_word_data (s : EngineState) (hw : ∀ w ∈ s.words, w ≠ []) :
    (getCurrentWordData s = none ↔ s.words.length ≤ s.currentIndex) ∧
    (getCurrentWordData s).elim True (fun d =>
      d.word = s.words.getD s.currentIndex [] ∧
      d.orpIndex = calculateORP d.word ∧
      d.orpChar = charAt d.word d.orpIndex ∧
      d.orpChar.isSome = true ∧
      d.before ++ d.orpChar.toList ++ d.after = d.word) := by
  by_cases hle : s.words.length ≤ s.currentIndex
  · simp [getCurrentWordData, hle]
  · have hlt : s.currentIndex < s.words.length := by omega
    set w : Word := s.words.getD s.currentIndex [] with hwdef
    have hmem : w ∈ s.words := by
      have : s.words.getD s.currentIndex [] = s.words[s.currentIndex] :=
        List.getD_eq_getElem s.words [] hlt
      rw [hwdef, this]
      exact List.getElem_mem hlt
    have hnil : w ≠ [] := hw w hmem
    have hlen : 1 ≤ w.length := by
      have := List.length_pos.mpr hnil
      omega
    obtain ⟨h0, h1⟩ := calculateORP_bounds w hlen
    set i : ℤ := calculateORP w with hidef
    have htn : i.toNat < w.length := by omega
    have hcharAt : charAt w i = some (w.get ⟨i.toNat, htn⟩) := by
      simp only [charAt, if_pos h0]
      exact List.get?_eq_get htn
    constructor
    · simp [getCurrentWordData, hle]
    · simp only [getCurrentWordData, if_neg hle, Option.elim, ← hwdef, ← hidef]
      refine ⟨trivial, trivial, trivial, by simp [hcharAt], ?_⟩
      rw [hcharAt]
      have hsucc : (i + 1).toNat = i.toNat + 1 := by omega
      rw [hsucc]
      simp only [Option.toList_some]
      have hdrop : w.get ⟨i.toNat, htn⟩ :: w.drop (i.toNat + 1) = w.drop i.toNat := by
        simp only [List.get_eq_getElem]
        exact List.getElem_cons_drop w i.toNat htn
      calc w.take i.toNat ++ [w.get ⟨i.toNat, htn⟩] ++ w.drop (i.toNat + 1)
          = w.take i.toNat ++ (w.get ⟨i.toNat, htn⟩ :: w.drop (i.toNat + 1)) := by
            simp
        _ = w.take i.toNat ++ w.drop i.toNat := by rw [hdrop]
        _ = w := List.take_append_drop i.toNat w

/-- Pausing always lands in a state with no armed timer and not
playing. -/
lemma inv_pause (s : EngineState) :
    ((pause s).1.isPlaying = true ↔ (pause s).1.pending ≠ none) := by
  simp [pause]

/-- start preserves the playing-iff-armed invariant. -/
lemma inv_start (s : EngineState)
    (ih : s.isPlaying = true ↔ s.pending ≠ none) :
    ((start s).1.isPlaying = true ↔ (start s).1.pending ≠ none) := by
  by_cases h0 : s.words.length = 0
  · simpa [start, h0] using ih
  · by_cases hp : s.isPlaying = true
    · simpa [start, h0, hp] using ih
    · simp [start, h0, hp, scheduleNextWord]

/-- Timer firing preserves the playing-iff-armed invariant. -/
lemma inv_fire (s : EngineState) (actual : ℚ)
    (ih : s.isPlaying = true ↔ s.pending ≠ none) :
    ((fireTimeout s actual).1.isPlaying = true ↔
      (fireTimeout s actual).1.pending ≠ none) := by
  rcases hp : s.pending with _ | d
  · simpa [fireTimeout, hp] using ih
  · by_cases hpl : s.isPlaying = true
    · by_cases hend : s.words.length ≤ s.currentIndex + 1
      · simp [fireTimeout, hp, hpl, hend]
      · simp [fireTimeout, hp, hpl, hend, scheduleNextWord]
    · simp [fireTimeout, hp, hpl]

/-- Every single transition preserves the playing-iff-armed invariant. -/
lemma inv_step (s s' : EngineState) (st : Step s s')
    (ih : s.isPlaying = true ↔ s.pending ≠ none) :
    s'.isPlaying = true ↔ s'.pending ≠ none := by
  cases st with
  | setTextStep t => simp [setText]
  | startStep => exact inv_start s ih
  | pauseStep => exact inv_pause s
  | toggleStep =>
      by_cases hp : s.isPlaying = true
      · simpa [toggle, hp] using inv_pause s
      · simpa [toggle, hp] using inv_start s ih
  | resetStep => simp [reset]
  | setWPMStep wpm => simpa [setWPM] using ih
  | fireStep actual => exact inv_fire s actual ih

/-- C8: in every reachable engine state, the engine is playing exactly
when the (unique, option-valued) armed timer exists. -/
theorem claim8_invariant (s : EngineState) (h : Reachable s) :
    s.isPlaying = true ↔ s.pending ≠ none := by
  induction h with
  | init => simp [initState]
  | step hr st ih => exact inv_step _ _ st ih

theorem claim8_invariant_witness :
    (initState.isPlaying = true ↔ initState.pending ≠ none) :=
  claim8_invariant initState Reachable.init

/-- With no armed timer nothing can fire: the state is unchanged and
nothing is emitted. -/
lemma fireTimeout_none (s : EngineState) (h : s.pending = none) (actual : ℚ) :
    fireTimeout s actual = (s, []) := by
  simp [fireTimeout, h]

/-- Starting a freshly loaded non-empty state: enters Playing with an
armed timer at position 0 and emits exactly one word-changed event. -/
lemma start_fresh (s : EngineState) (hpl : s.isPlaying = false)
    (hidx : s.currentIndex = 0) (hne : s.words ≠ []) :
    (start s).1.isPlaying = true ∧ (start s).1.pending.isSome = true ∧
    (start s).1.currentIndex = 0 ∧ (start s).1.words = s.words ∧
    (start s).2.countP isWordChangedEv = 1 ∧
    (start s).2.countP isProgressEv = 0 ∧
    (start s).2.countP isCompletedEv = 0 := by
  have h0 : ¬s.words.length = 0 := by simpa [List.length_eq_zero] using hne
  have hgt : ¬s.words.length ≤ s.currentIndex := by omega
  refine ⟨?_, ?_, ?_, ?_, ?_, ?_, ?_⟩ <;>
    simp [start, h0, hpl, hidx, hgt, scheduleNextWord, displayCurrentWord,
      getCurrentWordData, isWordChangedEv, isProgressEv, isCompletedEv]

/-- Core induction of the timed-advance loop: from a playing state with
an armed timer and m words left, letting every scheduled transition fire
ends outside Playing with no armed timer, having emitted m - 1 further
word-changed events, m progress events and a single completion as the
last event. -/
lemma runFires_completes : ∀ (m : ℕ) (s : EngineState),
    s.isPlaying = true → s.pending.isSome = true →
    s.currentIndex + m = s.words.length → 1 ≤ m →
    (runFires m s).1.isPlaying = false ∧
    (runFires m s).1.pending = none ∧
    (runFires m s).2.countP isWordChangedEv = m - 1 ∧
    (runFires m s).2.countP isProgressEv = m ∧
    (runFires m s).2.countP isCompletedEv = 1 ∧
    (runFires m s).2.getLast? = some Event.completed := by
  intro m
  induction m with
  | zero => intro s _ _ _ hm; exact absurd hm (by omega)
  | succ k ih =>
      intro s hpl hpend hidx _
      rcases Option.isSome_iff_exists.mp hpend with ⟨d, hd⟩
      by_cases hend : s.words.length ≤ s.currentIndex + 1
      · have hk : k = 0 := by omega
        subst hk
        simp [runFires, fireTimeout, hd, hpl, hend, updateProgress,
          isWordChangedEv, isProgressEv, isCompletedEv]
      · have hk1 : 1 ≤ k := by omega
        have hN1 : (fireTimeout s (s.pending.getD 0)).1.isPlaying = true := by
          simp [fireTimeout, hd, hpl, hend, scheduleNextWord]
        have hN2 : (fireTimeout s (s.pending.getD 0)).1.pending.isSome = true := by
          simp [fireTimeout, hd, hpl, hend, scheduleNextWord]
        have hN3 : (fireTimeout s (s.pending.getD 0)).1.currentIndex =
            s.currentIndex + 1 := by
          simp [fireTimeout, hd, hpl, hend, scheduleNextWord]
        have hN4 : (fireTimeout s (s.pending.getD 0)).1.words = s.words := by
          simp [fireTimeout, hd, hpl, hend, scheduleNextWord]
        have hE1 : (fireTimeout s (s.pending.getD 0)).2.countP isWordChangedEv = 1 := by
          simp [fireTimeout, hd, hpl, hend, updateProgress, displayCurrentWord,
            getCurrentWordData, isWordChangedEv, isProgressEv, isCompletedEv]
        have hE2 : (fireTimeout s (s.pending.getD 0)).2.countP isProgressEv = 1 := by
          simp [fireTimeout, hd, hpl, hend, updateProgress, displayCurrentWord,
            getCurrentWordData, isWordChangedEv, isProgressEv, isCompletedEv]
        have hE3 : (fireTimeout s (s.pending.getD 0)).2.countP isCompletedEv = 0 := by
          simp [fireTimeout, hd, hpl, hend, updateProgress, displayCurrentWord,
            getCurrentWordData, isWordChangedEv, isProgressEv, isCompletedEv]
        have ihs := ih (fireTimeout s (s.pending.getD 0)).1 hN1 hN2
          (by rw [hN3, hN4]; omega) hk1
        have hne : (runFires k (fireTimeout s (s.pending.getD 0)).1).2 ≠ [] := by
          intro hnil
          have := ihs.2.2.2.2.1
          rw [hnil] at this
          simp at this
        simp only [runFires]
        refine ⟨ihs.1, ihs.2.1, ?_, ?_, ?_, ?_⟩
        · rw [List.countP_append, hE1, ihs.2.2.1]; omega
        · rw [List.countP_append, hE2, ihs.2.2.2.1]; omega
        · rw [List.countP_append, hE3, ihs.2.2.2.2.1]
        · rw [List.getLast?_append_of_ne_nil _ hne]
          exact ihs.2.2.2.2.2

/-- C4: a transition firing at the end of the sequence leaves Playing,
completes exactly once and schedules nothing; a full playback over the n
loaded words emits exactly n word-changed and n progress-changed events
with the single completion event last, and no transition can fire
afterwards. -/
theorem claim4_completion (s : EngineState) (t : Word) (h : tokenize t ≠ []) :
    (playbackTrace s t).1.isPlaying = false ∧
    (playbackTrace s t).1.pending = none ∧
    (playbackTrace s t).2.countP isWordChangedEv = (tokenize t).length ∧
    (playbackTrace s t).2.countP isProgressEv = (tokenize t).length ∧
    (playbackTrace s t).2.countP isCompletedEv = 1 ∧
    (playbackTrace s t).2.getLast? = some Event.completed ∧
    (∀ actual : ℚ,
      fireTimeout (playbackTrace s t).1 actual = ((playbackTrace s t).1, [])) ∧
    (∀ (s' : EngineState) (actual d : ℚ), s'.isPlaying = true →
      s'.pending = some d → s'.words.length ≤ s'.currentIndex + 1 →
      (fireTimeout s' actual).1.isPlaying = false ∧
      (fireTimeout s' actual).1.pending = none ∧
      (fireTimeout s' actual).2.countP isCompletedEv = 1) := by
  have hw : (setText s t).1.words = tokenize t := rfl
  have hfresh := start_fresh (setText s t).1 rfl rfl (by rw [hw]; exact h)
  obtain ⟨hS1, hS2, hS3, hS4, hSW, hSP, hSC⟩ := hfresh
  have hlen : 1 ≤ (tokenize t).length := by
    have := List.length_pos.mpr h
    omega
  have hrun := runFires_completes (tokenize t).length (start (setText s t).1).1
    hS1 hS2 (by rw [hS3, hS4, hw]; omega) hlen
  have hne : (runFires (tokenize t).length (start (setText s t).1).1).2 ≠ [] := by
    intro hnil
    have := hrun.2.2.2.2.1
    rw [hnil] at this
    simp at this
  refine ⟨hrun.1, hrun.2.1, ?_, ?_, ?_, ?_, ?_, ?_⟩
  · show ((start (setText s t).1).2 ++ _).countP isWordChangedEv = _
    rw [List.countP_append, hSW, hrun.2.2.1]
    omega
  · show ((start (setText s t).1).2 ++ _).countP isProgressEv = _
    rw [List.countP_append, hSP, hrun.2.2.2.1]
    omega
  · show ((start (setText s t).1).2 ++ _).countP isCompletedEv = _
    rw [List.countP_append, hSC, hrun.2.2.2.2.1]
  · show ((start (setText s t).1).2 ++ _).getLast? = _
    rw [List.getLast?_append_of_ne_nil _ hne]
    exact hrun.2.2.2.2.2
  · exact fun actual => fireTimeout_none _ hrun.2.1 actual
  · intro s' actual d hpl hpend hend
    refine ⟨?_, ?_, ?_⟩ <;>
      simp [fireTimeout, hpend, hpl, hend, updateProgress, isCompletedEv]

theorem claim4_completion_witness :
    tokenize ("a b c".toList) ≠ [] ∧
    (playbackTrace initState ("a b c".toList)).1.isPlaying = false ∧
    (playbackTrace initState ("a b c".toList)).1.pending = none ∧
    (playbackTrace initState ("a b c".toList)).2.countP isWordChangedEv = 3 ∧
    (playbackTrace initState ("a b c".toList)).2.countP isProgressEv = 3 ∧
    (playbackTrace initState ("a b c".toList)).2.countP isCompletedEv = 1 ∧
    (playbackTrace initState ("a b c".toList)).2.getLast? = some Event.completed := by
  have h := claim4_completion initState ("a b c".toList) (by decide)
  exact ⟨by decide, h.1, h.2.1,
    h.2.2.1.trans (by decide), h.2.2.2.1.trans (by decide),
    h.2.2.2.2.1, h.2.2.2.2.2.1⟩

theorem claim10_word_data_witness :
    (∀ w ∈ sampleIdle.words, w ≠ []) ∧
    ((getCurrentWordData sampleIdle = none ↔
        sampleIdle.words.length ≤ sampleIdle.currentIndex) ∧
      (getCurrentWordData sampleIdle).elim True (fun d =>
        d.word = sampleIdle.words.getD sampleIdle.currentIndex [] ∧
        d.orpIndex = calculateORP d.word ∧
        d.orpChar = charAt d.word d.orpIndex ∧
        d.orpChar.isSome = true ∧
        d.before ++ d.orpChar.toList ++ d.after = d.word)) :=
  ⟨by decide, claim10_word_data sampleIdle (by decide)⟩

end RSVP
